import Mathlib

/-!
Verification of the `lie_groups` Python package against its specification.

The development shallowly embeds the core routines of the repository:

* `lie_groups/geodesic.py`: `compute_distance_matrix`, `geodesic_embedding`,
  `analyze_embedding_quality`;
* `lie_groups/core.py`: `random_sun`, `matrix_log`, `bi_invariant_distance`,
  `polar_decomposition`;
* `lie_groups/weyl.py`: `su3_alcove_coords`, `sun_alcove_coords`;
* `lie_groups/cartan.py`: `cartan_projection`, `polar_decomposition`.

Conventions of the embedding:

* machine floats become exact real (`ℝ`) or complex (`ℂ`) numbers, so the
  spec's "within numerical tolerance" becomes exact equality;
* LAPACK factorizations (`scipy.linalg.eig`, `eigh`, `svd`), which the code
  consumes but does not implement, are modelled either by passing the
  factorization data explicitly together with its defining equations
  (SVD, Hermitian eigendecomposition) or, for quantities that depend only on
  the spectrum, through the multiset of roots of the characteristic
  polynomial (`numpy`'s `eig` returns the eigenvalues with algebraic
  multiplicity, i.e. exactly that multiset);
* `numpy` random draws are modelled by an explicit stream of samples;
* Python exceptions become `Except`.
-/

namespace LieGroups

open Matrix

open scoped ComplexOrder

/-! ## `geodesic.compute_distance_matrix`

`compute_distance_matrix(elements, distance_func)` allocates a `k × k` zero
matrix and then runs

    for i in range(n):
        for j in range(i+1, n):
            d = distance_func(elements[i], elements[j])
            D[i, j] = D[j, i] = d

The element type `α` and the value type `M` are kept generic (Python is
dynamically typed); `M` needs a zero for the `np.zeros` initialization.
The builder is instrumented: alongside the matrix it returns the list of
index pairs on which `distance_func` was invoked, in invocation order.
-/

/-- The pairs `(i, j)` visited by the double loop
`for i in range(k): for j in range(i+1, k)`, in loop order. -/
def upperPairs (k : ℕ) : List (Fin k × Fin k) :=
  (List.finRange k).flatMap fun i =>
    ((List.finRange k).filter fun j => i < j).map fun j => (i, j)

theorem mem_upperPairs {k : ℕ} (p : Fin k × Fin k) :
    p ∈ upperPairs k ↔ p.1 < p.2 := by
  obtain ⟨i, j⟩ := p
  simp only [upperPairs, List.mem_flatMap, List.mem_map, List.mem_filter,
    List.mem_finRange, true_and, decide_eq_true_eq]
  constructor
  · rintro ⟨a, b, hb, h⟩
    rw [Prod.mk.injEq] at h
    obtain ⟨rfl, rfl⟩ := h
    exact hb
  · intro h
    exact ⟨i, j, h, rfl⟩

/-- One execution of the loop body: write the freshly computed distance
`d` into the symmetric pair of cells `D[i, j]` and `D[j, i]`. -/
def writeSym {k : ℕ} {M : Type*} (D : Fin k → Fin k → M)
    (p : Fin k × Fin k) (d : M) : Fin k → Fin k → M :=
  fun i j => if (i = p.1 ∧ j = p.2) ∨ (i = p.2 ∧ j = p.1) then d else D i j

/-- `compute_distance_matrix(elements, distance_func)`, instrumented:
returns the distance matrix together with the list of argument pairs on
which `distance_func` was invoked, in invocation order. -/
def compute_distance_matrix {k : ℕ} {α M : Type*} [Zero M]
    (elements : Fin k → α) (distance_func : α → α → M) :
    (Fin k → Fin k → M) × List (Fin k × Fin k) :=
  (upperPairs k).foldl
    (fun s p =>
      (writeSym s.1 p (distance_func (elements p.1) (elements p.2)),
        s.2 ++ [p]))
    (fun _ _ => 0, [])

theorem compute_distance_matrix_trace {k : ℕ} {α M : Type*} [Zero M]
    (elements : Fin k → α) (f : α → α → M) :
    (compute_distance_matrix elements f).2 = upperPairs k := by
  unfold compute_distance_matrix
  generalize upperPairs k = l
  suffices h : ∀ (l : List (Fin k × Fin k)) D0 (t : List (Fin k × Fin k)),
      (l.foldl
        (fun s p =>
          (writeSym s.1 p (f (elements p.1) (elements p.2)), s.2 ++ [p]))
        (D0, t)).2 = t ++ l by
    simpa using h l (fun _ _ => 0) []
  intro l
  induction l with
  | nil => simp
  | cons p l ih =>
    intro D0 t
    simp [List.foldl_cons, ih]

/-- Evaluating the write-loop fold: provided every processed pair lies
strictly above the diagonal, the cell `(i, j)` holds the distance computed
for `(i, j)` if that pair was processed, the distance computed for `(j, i)`
if that one was, and its initial value otherwise. -/
theorem foldl_writeSym_apply {k : ℕ} {α M : Type*} [Zero M]
    (elements : Fin k → α) (f : α → α → M)
    (l : List (Fin k × Fin k)) (hl : ∀ p ∈ l, p.1 < p.2) :
    ∀ (D0 : Fin k → Fin k → M) (t : List (Fin k × Fin k)) (i j : Fin k),
      (l.foldl
        (fun s p =>
          (writeSym s.1 p (f (elements p.1) (elements p.2)), s.2 ++ [p]))
        (D0, t)).1 i j =
        if (i, j) ∈ l then f (elements i) (elements j)
        else if (j, i) ∈ l then f (elements j) (elements i)
        else D0 i j := by
  induction l with
  | nil => simp
  | cons p l ih =>
    intro D0 t i j
    obtain ⟨a, b⟩ := p
    have hab : a < b := by simpa using hl (a, b) (List.mem_cons_self _ l)
    have hl' : ∀ q ∈ l, q.1 < q.2 := fun q hq => hl q (List.mem_cons_of_mem _ hq)
    rw [List.foldl_cons, ih hl']
    by_cases hij : (i, j) ∈ l
    · simp [hij]
    · by_cases hji : (j, i) ∈ l
      · have hj : j < i := by simpa using hl' (j, i) hji
        have h1 : ¬((i, j) = (a, b)) := by
          rw [Prod.mk.injEq]
          rintro ⟨rfl, rfl⟩
          exact absurd hab (lt_asymm hj)
        simp [List.mem_cons, hij, hji, h1]
      · by_cases h2 : i = a ∧ j = b
        · obtain ⟨rfl, rfl⟩ := h2
          simp [writeSym, hij, hji]
        · by_cases h3 : i = b ∧ j = a
          · obtain ⟨h3i, h3j⟩ := h3
            rw [h3i, h3j] at hij hji ⊢
            simp [writeSym, hab.ne, hab.ne', hij, hji]
          · have h4 : ¬(i = a ∧ j = b) := h2
            have h5 : ¬(j = a ∧ i = b) := fun h => h3 ⟨h.2, h.1⟩
            simp [writeSym, hij, hji, h2, h3, Prod.mk.injEq, h4, h5]

/-! ## `geodesic.geodesic_embedding` dispatch

`geodesic_embedding(elements, method, n_components, distance_func, **kwargs)`
dispatches on the `method` string: `"isomap"` builds the distance matrix and
hands it to `sklearn`'s `Isomap`, `"mds"` builds it and hands it to `MDS`
(with `random_state` defaulting to 42), `"pca"` flattens the elements and
hands them to `PCA`, and any other string raises
`ValueError(f"Unknown embedding method: {method}")`.

The three `sklearn` estimators are external collaborators; they are modelled
as injected total functions (`isomapImpl`, `mdsImpl`, `pcaImpl`).  The
`"pca"` branch's flattening of the raw elements is folded into `pcaImpl`,
which receives the element collection itself.
-/

/-- The error raised by the embedding dispatcher (`ValueError` carrying the
offending method string). -/
inductive EmbedError where
  | unknownMethod (method : String) : EmbedError
  deriving DecidableEq

/-- `geodesic_embedding`, with the three external `sklearn` estimators
injected.  `E` is the embedding (coordinate-array) type. -/
def geodesic_embedding {k : ℕ} {α M E : Type*} [Zero M]
    (elements : Fin k → α) (distance_func : α → α → M)
    (method : String) (n_components n_neighbors random_state : ℕ)
    (isomapImpl : (Fin k → Fin k → M) → ℕ → ℕ → E)
    (mdsImpl : (Fin k → Fin k → M) → ℕ → ℕ → E)
    (pcaImpl : (Fin k → α) → ℕ → E) : Except EmbedError E :=
  if method = "isomap" then
    Except.ok (isomapImpl (compute_distance_matrix elements distance_func).1
      n_components n_neighbors)
  else if method = "mds" then
    Except.ok (mdsImpl (compute_distance_matrix elements distance_func).1
      n_components random_state)
  else if method = "pca" then
    Except.ok (pcaImpl elements n_components)
  else
    Except.error (EmbedError.unknownMethod method)

/-! ## `core.random_sun`

`random_sun(n, num_samples)` returns `random_su(n)` itself when
`num_samples == 1` and `[random_su(n) for _ in range(num_samples)]`
otherwise.  The Haar sampler `random_su(n)` makes independent draws from
`np.random`; the stream of its successive return values is modelled by an
injected function `random_su : ℕ → α` (call index ↦ sampled element), so the
list-comprehension branch maps that stream over `range num_samples`.  The
Python function's two possible return shapes (bare matrix vs. list) become
the two sides of a sum type. -/
def random_sun {α : Type*} (random_su : ℕ → α) (num_samples : ℕ) :
    α ⊕ List α :=
  if num_samples = 1 then Sum.inl (random_su 0)
  else Sum.inr ((List.range num_samples).map random_su)

/-! ## `core.matrix_log`, `hermitian=True` branch

    if hermitian:
        w, V = la.eigh(U)
        L = V @ np.diag(np.log(w)) @ V.conj().T

`scipy.linalg.eigh` is external; the branch is modelled on the
eigendecomposition data it returns: the real eigenvalue vector `w` and the
eigenvector matrix `V`.  `np.log` on a real array is total: for an argument
`≤ 0` it emits a `RuntimeWarning` and produces `nan` (negative argument) or
`-inf` (zero argument) — it raises no exception, and the branch contains no
eigenvalue check, so the branch never raises.  In the exact-real model
`Real.log` plays the role of `np.log` (it is likewise total, with junk value
`0` on nonpositive arguments).  The `Except` wrapper records the error
behaviour of `matrix_log`; the general (`hermitian=False`) branch could fail
on a singular eigenvector matrix, the Hermitian branch never does. -/

noncomputable section

/-- Error kinds of `matrix_log` named by the spec. -/
inductive MatrixLogError where
  | nonPositiveEigenvalue : MatrixLogError
  | singularEigenbasis : MatrixLogError
  deriving DecidableEq

/-- The `hermitian=True` branch of `matrix_log`, on the eigendecomposition
`(w, V)` returned by `scipy.linalg.eigh`. -/
def matrix_log_hermitian {n : ℕ} (w : Fin n → ℝ)
    (V : Matrix (Fin n) (Fin n) ℂ) :
    Except MatrixLogError (Matrix (Fin n) (Fin n) ℂ) :=
  Except.ok (V * Matrix.diagonal (fun i => (Real.log (w i) : ℂ)) * Vᴴ)

/-! ## Spectral toolbox

`numpy.linalg`/`scipy.linalg`'s `eig` returns, for an `n × n` complex
matrix, its `n` eigenvalues with algebraic multiplicity — exactly the
multiset of roots of the characteristic polynomial, which over `ℂ` has
cardinality `n`.  Quantities of the code that depend only on that spectrum
are embedded through `Matrix.charpoly.roots`.  The lemmas below supply the
facts about that multiset that the claims need: its value on diagonal
matrices, invariance under similarity conjugation, and behaviour under
conjugate transposition. -/

theorem charmatrix_diagonal {n : ℕ} {R : Type*} [CommRing R] (d : Fin n → R) :
    Matrix.charmatrix (Matrix.diagonal d) =
      Matrix.diagonal fun i => Polynomial.X - Polynomial.C (d i) := by
  ext i j
  by_cases hij : i = j
  · subst hij
    simp
  · simp [Matrix.charmatrix_apply_ne _ _ _ hij, Matrix.diagonal_apply_ne _ hij]

theorem charpoly_diagonal {n : ℕ} {R : Type*} [CommRing R] (d : Fin n → R) :
    (Matrix.diagonal d).charpoly = ∏ i, (Polynomial.X - Polynomial.C (d i)) := by
  rw [Matrix.charpoly, charmatrix_diagonal, Matrix.det_diagonal]

theorem roots_charpoly_diagonal {n : ℕ} {R : Type*} [CommRing R] [IsDomain R]
    (d : Fin n → R) :
    (Matrix.diagonal d).charpoly.roots = Finset.univ.val.map d := by
  rw [charpoly_diagonal,
    show (∏ i, (Polynomial.X - Polynomial.C (d i))) =
      ((Finset.univ.val.map d).map
        (fun a => Polynomial.X - Polynomial.C a)).prod by
        rw [Multiset.map_map]; rfl,
    Polynomial.roots_multiset_prod_X_sub_C]

theorem mapC_mul_mapC {n : ℕ} {R : Type*} [CommRing R]
    (P Q : Matrix (Fin n) (Fin n) R) (h : P * Q = 1) :
    P.map (Polynomial.C : R → Polynomial R) *
      Q.map (Polynomial.C : R → Polynomial R) = 1 := by
  rw [← Matrix.map_mul, h, Matrix.map_one _ Polynomial.C_0 Polynomial.C_1]

theorem charmatrix_conj {n : ℕ} {R : Type*} [CommRing R]
    (P M Q : Matrix (Fin n) (Fin n) R) (h : P * Q = 1) :
    Matrix.charmatrix (P * M * Q) =
      P.map (Polynomial.C : R → Polynomial R) * Matrix.charmatrix M *
        Q.map (Polynomial.C : R → Polynomial R) := by
  have hPQ := mapC_mul_mapC P Q h
  have hs : P.map (Polynomial.C : R → Polynomial R) *
      Matrix.scalar (Fin n) (Polynomial.X : Polynomial R) *
      Q.map (Polynomial.C : R → Polynomial R) =
      Matrix.scalar (Fin n) (Polynomial.X : Polynomial R) := by
    have hc := (Matrix.scalar_commute (Polynomial.X : Polynomial R)
      (fun r' => Commute.all _ _)
      (P.map (Polynomial.C : R → Polynomial R))).eq
    rw [← hc, mul_assoc, hPQ, mul_one]
  rw [Matrix.charmatrix, Matrix.charmatrix, RingHom.mapMatrix_apply,
    RingHom.mapMatrix_apply, Matrix.map_mul, Matrix.map_mul,
    Matrix.mul_sub, Matrix.sub_mul, hs]

/-- Similar matrices have the same characteristic polynomial (hence the same
eigenvalue multiset): `numpy`'s eigenvalues are invariant under conjugation. -/
theorem charpoly_conj {n : ℕ} {R : Type*} [CommRing R]
    (P M Q : Matrix (Fin n) (Fin n) R) (h : P * Q = 1) :
    (P * M * Q).charpoly = M.charpoly := by
  have hPQ : (P.map (Polynomial.C : R → Polynomial R)).det *
      (Q.map (Polynomial.C : R → Polynomial R)).det = 1 := by
    rw [← Matrix.det_mul, mapC_mul_mapC P Q h, Matrix.det_one]
  rw [Matrix.charpoly, charmatrix_conj P M Q h, Matrix.det_mul, Matrix.det_mul,
    mul_right_comm, hPQ, one_mul, Matrix.charpoly]

theorem charmatrix_transpose {n : ℕ} {R : Type*} [CommRing R]
    (M : Matrix (Fin n) (Fin n) R) :
    Matrix.charmatrix Mᵀ = (Matrix.charmatrix M)ᵀ := by
  ext i j
  by_cases hij : i = j
  · subst hij
    simp
  · simp [Matrix.charmatrix_apply_ne _ _ _ hij,
      Matrix.charmatrix_apply_ne _ _ _ (Ne.symm hij), Matrix.transpose_apply]

theorem charpoly_transpose {n : ℕ} {R : Type*} [CommRing R]
    (M : Matrix (Fin n) (Fin n) R) : Mᵀ.charpoly = M.charpoly := by
  rw [Matrix.charpoly, charmatrix_transpose, Matrix.det_transpose,
    Matrix.charpoly]

theorem conjTranspose_eq_transpose_map {n : ℕ}
    (M : Matrix (Fin n) (Fin n) ℂ) : Mᴴ = Mᵀ.map (starRingEnd ℂ) := by
  ext i j
  simp [Matrix.conjTranspose_apply, Matrix.map_apply, Matrix.transpose_apply]

theorem charpoly_conjTranspose {n : ℕ} (M : Matrix (Fin n) (Fin n) ℂ) :
    Mᴴ.charpoly = M.charpoly.map (starRingEnd ℂ) := by
  rw [conjTranspose_eq_transpose_map, Matrix.charpoly_map,
    charpoly_transpose]

theorem roots_charpoly_conjTranspose {n : ℕ} (M : Matrix (Fin n) (Fin n) ℂ) :
    Mᴴ.charpoly.roots = M.charpoly.roots.map (starRingEnd ℂ) := by
  rw [charpoly_conjTranspose]
  exact Polynomial.roots_map _ (IsAlgClosed.splits_codomain _)

theorem card_roots_charpoly {n : ℕ} (M : Matrix (Fin n) (Fin n) ℂ) :
    Multiset.card M.charpoly.roots = n := by
  have hsp := Polynomial.splits_iff_card_roots.mp
    (IsAlgClosed.splits_codomain (k := ℂ) M.charpoly)
  rw [hsp, Matrix.charpoly_natDegree_eq_dim, Fintype.card_fin]

/-! ## `core.bi_invariant_distance`

    W = U.conj().T @ V
    L = matrix_log(W)
    return la.norm(L, 'fro')

with `matrix_log`'s general branch `L = V_w @ np.diag(1j * ang) @ la.inv(V_w)`
where `w, V_w = la.eig(W)` and `ang = np.angle(w) ∈ (−π, π]`.
For unitary `W` the matrix `L` does not depend on the eigenbasis `V_w`
(`V_w diag(f(w)) V_w⁻¹` is the primary matrix function `f(W)` for any
diagonalizing basis) and is a normal matrix, so its Frobenius norm is
`√(Σ angle(λ)²)` over the eigenvalue multiset of `W`.  The embedding
computes the distance through that spectral formula, with the eigenvalue
multiset (what `la.eig` returns) given by the characteristic polynomial;
`Complex.arg` has range `(−π, π]`, matching `np.angle`. -/
def bi_invariant_distance {n : ℕ} (U V : Matrix (Fin n) (Fin n) ℂ) : ℝ :=
  Real.sqrt (((Uᴴ * V).charpoly.roots.map fun z => Complex.arg z ^ 2).sum)

/-! ## `weyl.su3_alcove_coords` and `weyl.sun_alcove_coords`

Both routines compute `w, _ = la.eig(U)`, `angles = np.angle(w)`,
`angles -= angles.mean()`, `angles = np.sort(angles)[::-1]`, and then:

* `su3_alcove_coords` (3×3 only) returns
  `[angles[0] - angles[1], angles[1] - angles[2]]`;
* `sun_alcove_coords` returns `np.diff(angles)`, i.e. the list
  `[angles[i+1] - angles[i] for i in range(n-1)]`.
-/

/-- `np.angle(w)` for the eigenvalue multiset `w` of `U`. -/
def eig_angles {n : ℕ} (U : Matrix (Fin n) (Fin n) ℂ) : Multiset ℝ :=
  U.charpoly.roots.map Complex.arg

/-- `angles -= angles.mean()`. -/
def center_angles (m : Multiset ℝ) : Multiset ℝ :=
  m.map fun a => a - m.sum / (Multiset.card m : ℝ)

/-- `np.sort(angles)[::-1]`: sort ascending, then reverse. -/
def sort_desc (m : Multiset ℝ) : List ℝ :=
  (m.sort (· ≤ ·)).reverse

/-- `np.diff(l)`: the list of consecutive differences `l[i+1] - l[i]`. -/
def np_diff (l : List ℝ) : List ℝ :=
  List.zipWith (fun a b => b - a) l l.tail

/-- The descending sorted, mean-centered eigenvalue angles both alcove
routines work with. -/
def alcove_angles {n : ℕ} (U : Matrix (Fin n) (Fin n) ℂ) : List ℝ :=
  sort_desc (center_angles (eig_angles U))

/-- `sun_alcove_coords(U)`. -/
def sun_alcove_coords {n : ℕ} (U : Matrix (Fin n) (Fin n) ℂ) : List ℝ :=
  np_diff (alcove_angles U)

/-- `su3_alcove_coords(U)`: indexes the (always 3-element) sorted angle
array at `0`, `1`, `2`.  The catch-all branch is unreachable for `3 × 3`
input (the characteristic polynomial has exactly three complex roots). -/
def su3_alcove_coords (U : Matrix (Fin 3) (Fin 3) ℂ) : List ℝ :=
  match alcove_angles U with
  | a0 :: a1 :: a2 :: _ => [a0 - a1, a1 - a2]
  | _ => []

/-! ## `cartan.cartan_projection`

    U, S, Vh = la.svd(g)
    S_sorted = np.sort(S)[::-1]
    log_S = np.log(S_sorted)

LAPACK's SVD is external; the routine is modelled on the decomposition data
it returns.  `IsSVDOf g U S Vh` states that `(U, S, Vh)` is a valid SVD of
the real matrix `g`: orthogonal factors, nonnegative singular values,
`g = U @ diag(S) @ Vh` (over `ℝ`, `Matrix.unitaryGroup` is the orthogonal
group).  `cartan_projection` consumes the singular-value vector. -/
def IsSVDOf {n : ℕ} (g U : Matrix (Fin n) (Fin n) ℝ) (S : Fin n → ℝ)
    (Vh : Matrix (Fin n) (Fin n) ℝ) : Prop :=
  U ∈ Matrix.unitaryGroup (Fin n) ℝ ∧ Vh ∈ Matrix.unitaryGroup (Fin n) ℝ ∧
    (∀ i, 0 ≤ S i) ∧ g = U * Matrix.diagonal S * Vh

/-- `cartan_projection(g, return_decomposition=False)`, on the
singular-value vector `S` returned by `la.svd(g)`. -/
def cartan_projection {n : ℕ} (S : Fin n → ℝ) : List ℝ :=
  (sort_desc (Finset.univ.val.map S)).map Real.log

theorem star_eq_transpose_real {n : ℕ} (M : Matrix (Fin n) (Fin n) ℝ) :
    star M = Mᵀ := by
  ext i j
  simp [Matrix.star_apply, Matrix.transpose_apply]

/-- For any valid SVD of `g`, the multiset of squared singular values is the
eigenvalue multiset of `gᵀ g`; in particular it depends only on `g`. -/
theorem svd_singular_sq_multiset {n : ℕ} {g U : Matrix (Fin n) (Fin n) ℝ}
    {S : Fin n → ℝ} {Vh : Matrix (Fin n) (Fin n) ℝ} (h : IsSVDOf g U S Vh) :
    (gᵀ * g).charpoly.roots = Finset.univ.val.map fun i => S i ^ 2 := by
  obtain ⟨hU, hVh, hS, hg⟩ := h
  have hUtU : Uᵀ * U = 1 := by
    rw [← star_eq_transpose_real]
    exact Matrix.mem_unitaryGroup_iff'.mp hU
  have hVVt : Vhᵀ * Vh = 1 := by
    rw [← star_eq_transpose_real]
    exact Matrix.mem_unitaryGroup_iff'.mp hVh
  have hVtV : Vh * Vhᵀ = 1 := Matrix.mul_eq_one_comm.mp hVVt
  have key : gᵀ * g = Vhᵀ * Matrix.diagonal (fun i => S i ^ 2) * Vh := by
    rw [hg, Matrix.transpose_mul, Matrix.transpose_mul, Matrix.diagonal_transpose]
    calc Vhᵀ * (Matrix.diagonal S * Uᵀ) * (U * Matrix.diagonal S * Vh)
        = Vhᵀ * Matrix.diagonal S * (Uᵀ * U) * Matrix.diagonal S * Vh := by
          simp only [mul_assoc]
      _ = Vhᵀ * Matrix.diagonal (fun i => S i ^ 2) * Vh := by
          rw [hUtU, mul_one,
            mul_assoc Vhᵀ (Matrix.diagonal S) (Matrix.diagonal S),
            Matrix.diagonal_mul_diagonal]
          simp [pow_two]
  rw [key, charpoly_conj _ _ _ hVVt, roots_charpoly_diagonal]

/-- Any two SVDs of the same matrix carry the same multiset of singular
values (so the sorted singular-value vector is a function of `g` alone, and
`cartan_projection` is well defined on matrices). -/
theorem svd_singular_multiset_unique {n : ℕ}
    {g U₁ : Matrix (Fin n) (Fin n) ℝ} {S₁ : Fin n → ℝ}
    {Vh₁ U₂ : Matrix (Fin n) (Fin n) ℝ} {S₂ : Fin n → ℝ}
    {Vh₂ : Matrix (Fin n) (Fin n) ℝ}
    (h₁ : IsSVDOf g U₁ S₁ Vh₁) (h₂ : IsSVDOf g U₂ S₂ Vh₂) :
    Finset.univ.val.map S₁ = Finset.univ.val.map S₂ := by
  have e := (svd_singular_sq_multiset h₁).symm.trans (svd_singular_sq_multiset h₂)
  have key : ∀ (S : Fin n → ℝ), (∀ i, 0 ≤ S i) →
      Finset.univ.val.map S =
        (Finset.univ.val.map fun i => S i ^ 2).map Real.sqrt := by
    intro S hS
    rw [Multiset.map_map]
    refine Multiset.map_congr rfl fun i _ => ?_
    simp only [Function.comp_apply]
    rw [Real.sqrt_sq (hS i)]
  rw [key S₁ h₁.2.2.1, key S₂ h₂.2.2.1, e]

/-! ## `polar_decomposition` (identical in `cartan.py` and `core.py`)

    U, S, Vh = la.svd(A)
    P = Vh.conj().T @ np.diag(S) @ Vh
    U_polar = U @ Vh
    return U_polar, P

Modelled on the SVD data `(U, S, Vh)` of the complex input matrix `A`
returned by LAPACK (`U`, `Vh` unitary, `S` real nonnegative,
`A = U @ diag(S) @ Vh`). -/
def polar_decomposition {n : ℕ} (U : Matrix (Fin n) (Fin n) ℂ)
    (S : Fin n → ℝ) (Vh : Matrix (Fin n) (Fin n) ℂ) :
    Matrix (Fin n) (Fin n) ℂ × Matrix (Fin n) (Fin n) ℂ :=
  (U * Vh, Vhᴴ * Matrix.diagonal (fun i => (S i : ℂ)) * Vh)

/-! ## `geodesic.analyze_embedding_quality`

    embed_dist = squareform(pdist(embedding))
    mask = np.triu_indices_from(distance_matrix, k=1)
    orig_flat = distance_matrix[mask]
    embed_flat = embed_dist[mask]
    pearson_r, _ = pearsonr(orig_flat, embed_flat)
    spearman_r, _ = spearmanr(orig_flat, embed_flat)
    stress = np.sqrt(np.sum((orig_flat - embed_flat)**2) / np.sum(orig_flat**2))
    ... mean/max of np.abs(orig_flat - embed_flat)

`np.triu_indices_from(..., k=1)` enumerates the strict upper triangle in
row-major order — the same order as `upperPairs`.  `scipy.stats.pearsonr`
computes `Σ dx·dy / (√(Σ dx²) · √(Σ dy²))` for the mean-centered vectors;
`spearmanr` is `pearsonr` of the midranked (average-rank, tie-corrected)
vectors.  In the exact-real embedding a zero denominator makes the division
yield the junk value `0` (scipy produces `nan` there, for constant input of
length ≥ 2, and raises for input of length < 2 — in no case the value `1`). -/

/-- `np.mean` of a list. -/
def list_mean (l : List ℝ) : ℝ := l.sum / l.length

/-- Deviations from the mean, `x - x.mean()`. -/
def deviations (l : List ℝ) : List ℝ := l.map fun x => x - list_mean l

/-- Elementwise product, summed. -/
def list_dot (x y : List ℝ) : ℝ := (List.zipWith (· * ·) x y).sum

/-- `scipy.stats.pearsonr` (coefficient only), exact-arithmetic model. -/
def pearson (x y : List ℝ) : ℝ :=
  list_dot (deviations x) (deviations y) /
    (Real.sqrt (list_dot (deviations x) (deviations x)) *
      Real.sqrt (list_dot (deviations y) (deviations y)))

/-- `scipy.stats.rankdata` with `method='average'` (the midrank of each
entry), as used inside `spearmanr`. -/
def ranks (l : List ℝ) : List ℝ :=
  l.map fun a =>
    ((l.countP fun b => decide (b < a)) : ℝ) +
      (((l.countP fun b => decide (b = a)) : ℝ) + 1) / 2

/-- `scipy.stats.spearmanr` (coefficient only): Pearson of the midranks. -/
def spearman (x y : List ℝ) : ℝ := pearson (ranks x) (ranks y)

/-- Euclidean distance of rows `i`, `j` of the embedding
(`scipy.spatial.distance.pdist`). -/
def embed_dist {k d : ℕ} (emb : Fin k → Fin d → ℝ) (i j : Fin k) : ℝ :=
  Real.sqrt (∑ t, (emb i t - emb j t) ^ 2)

/-- `distance_matrix[np.triu_indices_from(distance_matrix, k=1)]`. -/
def orig_flat {k : ℕ} (D : Fin k → Fin k → ℝ) : List ℝ :=
  (upperPairs k).map fun p => D p.1 p.2

/-- `embed_dist[np.triu_indices_from(..., k=1)]`. -/
def embed_flat {k d : ℕ} (emb : Fin k → Fin d → ℝ) : List ℝ :=
  (upperPairs k).map fun p => embed_dist emb p.1 p.2

/-- The quality-metric dictionary returned by `analyze_embedding_quality`. -/
structure QualityMetrics where
  pearson_correlation : ℝ
  spearman_correlation : ℝ
  normalized_stress : ℝ
  mean_distortion : ℝ
  max_distortion : ℝ

/-- `analyze_embedding_quality(embedding, distance_matrix)`.  `np.max` is
modelled by `foldr max 0`; for at least two points the distortion list is
nonempty with nonnegative entries, so the seed `0` is inert. -/
def analyze_embedding_quality {k d : ℕ} (emb : Fin k → Fin d → ℝ)
    (D : Fin k → Fin k → ℝ) : QualityMetrics :=
  { pearson_correlation := pearson (orig_flat D) (embed_flat emb)
    spearman_correlation := spearman (orig_flat D) (embed_flat emb)
    normalized_stress :=
      Real.sqrt
        ((List.zipWith (fun a b => (a - b) ^ 2) (orig_flat D) (embed_flat emb)).sum /
          ((orig_flat D).map fun a => a ^ 2).sum)
    mean_distortion :=
      list_mean (List.zipWith (fun a b => |a - b|) (orig_flat D) (embed_flat emb))
    max_distortion :=
      (List.zipWith (fun a b => |a - b|) (orig_flat D) (embed_flat emb)).foldr max 0 }

/-! ### Helper lemmas for the quality metrics -/

theorem zipWith_map_same {ι β γ δ : Type*} (f : ι → β) (g : ι → γ)
    (h : β → γ → δ) (l : List ι) :
    List.zipWith h (l.map f) (l.map g) = l.map fun a => h (f a) (g a) := by
  induction l with
  | nil => rfl
  | cons a t ih => simp [ih]

theorem zipWith_self_eq_map {α β : Type*} (f : α → α → β) (l : List α) :
    List.zipWith f l l = l.map fun a => f a a := by
  induction l with
  | nil => rfl
  | cons a t ih => simp [ih]

theorem list_map_sum_eq {ι : Type*} (l : List ι) (F : ι → ℝ) :
    (l.map F).sum = ∑ i : Fin l.length, F (l.get i) := by
  conv_lhs => rw [← List.ofFn_get l]
  rw [List.map_ofFn, List.sum_ofFn]
  rfl

theorem list_cauchy_schwarz {ι : Type*} (l : List ι) (f g : ι → ℝ) :
    ((l.map fun a => f a * g a).sum) ^ 2 ≤
      ((l.map fun a => f a * f a).sum) * ((l.map fun a => g a * g a).sum) := by
  rw [list_map_sum_eq, list_map_sum_eq, list_map_sum_eq]
  have h := Finset.sum_mul_sq_le_sq_mul_sq Finset.univ
    (fun i : Fin l.length => f (l.get i)) fun i => g (l.get i)
  simpa [pow_two] using h

theorem list_sum_mul_self_nonneg {ι : Type*} (l : List ι) (f : ι → ℝ) :
    0 ≤ (l.map fun a => f a * f a).sum :=
  List.sum_nonneg fun x hx => by
    obtain ⟨a, -, rfl⟩ := List.mem_map.mp hx
    exact mul_self_nonneg _

theorem div_sqrt_mul_sqrt_bounds (S A B : ℝ) (hA : 0 ≤ A) (hB : 0 ≤ B)
    (hS : S ^ 2 ≤ A * B) : |S / (Real.sqrt A * Real.sqrt B)| ≤ 1 := by
  by_cases hd : Real.sqrt A * Real.sqrt B = 0
  · rw [hd, div_zero, abs_zero]
    exact zero_le_one
  · have hdpos : 0 < Real.sqrt A * Real.sqrt B :=
      lt_of_le_of_ne (mul_nonneg (Real.sqrt_nonneg A) (Real.sqrt_nonneg B))
        (Ne.symm hd)
    rw [abs_div, abs_of_pos hdpos, div_le_one hdpos]
    calc |S| ≤ Real.sqrt (A * B) := Real.abs_le_sqrt hS
      _ = Real.sqrt A * Real.sqrt B := Real.sqrt_mul hA B

/-- Pearson correlation of two equal-length vectors (presented as maps over
a common index list) lies in `[-1, 1]`; the degenerate zero-denominator
case evaluates to `0`, inside the interval. -/
theorem pearson_map_bounds {ι : Type*} (l : List ι) (F G : ι → ℝ) :
    -1 ≤ pearson (l.map F) (l.map G) ∧ pearson (l.map F) (l.map G) ≤ 1 := by
  have hdF : deviations (l.map F) =
      l.map fun a => F a - list_mean (l.map F) := by
    rw [deviations, List.map_map]
    rfl
  have hdG : deviations (l.map G) =
      l.map fun a => G a - list_mean (l.map G) := by
    rw [deviations, List.map_map]
    rfl
  refine abs_le.mp ?_
  rw [pearson, hdF, hdG, list_dot, list_dot, list_dot, zipWith_map_same,
    zipWith_map_same, zipWith_map_same]
  exact div_sqrt_mul_sqrt_bounds _ _ _ (list_sum_mul_self_nonneg l _)
    (list_sum_mul_self_nonneg l _) (list_cauchy_schwarz l _ _)

theorem spearman_map_bounds {ι : Type*} (l : List ι) (F G : ι → ℝ) :
    -1 ≤ spearman (l.map F) (l.map G) ∧ spearman (l.map F) (l.map G) ≤ 1 := by
  rw [spearman, ranks, ranks, List.map_map, List.map_map]
  exact pearson_map_bounds l _ _

theorem list_sum_pos_of_exists_pos (l : List ℝ) (hnn : ∀ y ∈ l, 0 ≤ y)
    (x : ℝ) (hx : x ∈ l) (hxpos : 0 < x) : 0 < l.sum := by
  obtain ⟨s, t, rfl⟩ := List.append_of_mem hx
  rw [List.sum_append, List.sum_cons]
  have h1 : 0 ≤ s.sum := List.sum_nonneg fun y hy => hnn y (by simp [hy])
  have h2 : 0 ≤ t.sum := List.sum_nonneg fun y hy => hnn y (by simp [hy])
  linarith

/-- Pearson correlation of a non-constant vector with itself is exactly 1. -/
theorem pearson_self (x : List ℝ) (h : ∃ a ∈ x, ∃ b ∈ x, a ≠ b) :
    pearson x x = 1 := by
  obtain ⟨a, ha, b, hb, hab⟩ := h
  have hc : ∃ c ∈ x, c - list_mean x ≠ 0 := by
    by_contra hall
    push_neg at hall
    have ha' : a = list_mean x := sub_eq_zero.mp (hall a ha)
    have hb' : b = list_mean x := sub_eq_zero.mp (hall b hb)
    exact hab (ha'.trans hb'.symm)
  obtain ⟨c, hc_mem, hc_ne⟩ := hc
  have hA : list_dot (deviations x) (deviations x) =
      (x.map fun a => (a - list_mean x) * (a - list_mean x)).sum := by
    rw [list_dot, deviations, zipWith_map_same]
  have hApos :
      0 < (x.map fun a => (a - list_mean x) * (a - list_mean x)).sum := by
    refine list_sum_pos_of_exists_pos _ ?_
      ((c - list_mean x) * (c - list_mean x)) (List.mem_map_of_mem _ hc_mem)
      (mul_self_pos.mpr hc_ne)
    intro y hy
    obtain ⟨z, -, rfl⟩ := List.mem_map.mp hy
    exact mul_self_nonneg _
  rw [pearson, hA, Real.mul_self_sqrt hApos.le, div_self hApos.ne']

theorem foldr_max_nonneg (l : List ℝ) : 0 ≤ l.foldr max 0 := by
  induction l with
  | nil => exact le_refl 0
  | cons a t ih =>
    simp only [List.foldr_cons]
    exact le_max_of_le_right ih

end

/-! ## Claim theorems -/

/-- C3: `compute_distance_matrix` on `k` elements and an injected metric
returns a `k × k` matrix whose diagonal is exactly zero, whose entry
`(i, j)` for `i < j` equals the metric applied to elements `i` and `j` and
equals entry `(j, i)`; the metric is invoked exactly on the strict
upper-triangle pairs `(i, j)` with `i < j` — never on a diagonal pair. -/
theorem compute_distance_matrix_spec {k : ℕ} {α M : Type*} [Zero M]
    (elements : Fin k → α) (f : α → α → M) :
    (∀ i, (compute_distance_matrix elements f).1 i i = 0) ∧
    (∀ i j : Fin k, i < j →
      (compute_distance_matrix elements f).1 i j = f (elements i) (elements j) ∧
      (compute_distance_matrix elements f).1 j i = f (elements i) (elements j)) ∧
    (compute_distance_matrix elements f).2 = upperPairs k ∧
    (∀ p ∈ (compute_distance_matrix elements f).2, p.1 < p.2) := by
  have hl : ∀ p ∈ upperPairs k, p.1 < p.2 := fun p hp => (mem_upperPairs p).mp hp
  have happ := foldl_writeSym_apply elements f (upperPairs k) hl
    (fun _ _ => 0) []
  refine ⟨?_, ?_, compute_distance_matrix_trace elements f, ?_⟩
  · intro i
    have h := happ i i
    have hnot : (i, i) ∉ upperPairs k := by simp [mem_upperPairs]
    rw [if_neg hnot, if_neg hnot] at h
    exact h
  · intro i j hij
    have h1 := happ i j
    have h2 := happ j i
    have hmem : (i, j) ∈ upperPairs k := (mem_upperPairs _).mpr hij
    have hnot : (j, i) ∉ upperPairs k := by
      rw [mem_upperPairs]
      exact not_lt.mpr hij.le
    rw [if_pos hmem] at h1
    rw [if_neg hnot, if_pos hmem] at h2
    exact ⟨h1, h2⟩
  · rw [compute_distance_matrix_trace elements f]
    exact hl

/-- C3 witness at `k = 3` with an `ℕ`-valued metric. -/
theorem compute_distance_matrix_spec_witness :
    (compute_distance_matrix (fun i : Fin 3 => (i : ℕ))
        fun a b => a + 10 * b).1 0 0 = 0 ∧
    (compute_distance_matrix (fun i : Fin 3 => (i : ℕ))
        fun a b => a + 10 * b).1 0 1 = 10 ∧
    (compute_distance_matrix (fun i : Fin 3 => (i : ℕ))
        fun a b => a + 10 * b).1 1 0 = 10 := by
  obtain ⟨hdiag, hupper, -, -⟩ :=
    compute_distance_matrix_spec (fun i : Fin 3 => (i : ℕ))
      fun a b => a + 10 * b
  obtain ⟨e1, e2⟩ := hupper 0 1 (by decide)
  refine ⟨hdiag 0, ?_, ?_⟩
  · rw [e1]
    decide
  · rw [e2]
    decide

/-- C7: `geodesic_embedding` fails with `UnknownMethod` exactly when the
`method` string lies outside `{isomap, mds, pca}`, and succeeds (never
raising that error) on every supported method. -/
theorem geodesic_embedding_dispatch {k : ℕ} {α M E : Type*} [Zero M]
    (elements : Fin k → α) (f : α → α → M) (method : String)
    (nc nn rs : ℕ) (isomapImpl mdsImpl : (Fin k → Fin k → M) → ℕ → ℕ → E)
    (pcaImpl : (Fin k → α) → ℕ → E) :
    (method ∉ (["isomap", "mds", "pca"] : List String) →
      geodesic_embedding elements f method nc nn rs isomapImpl mdsImpl pcaImpl =
        Except.error (EmbedError.unknownMethod method)) ∧
    (method ∈ (["isomap", "mds", "pca"] : List String) →
      ∃ e, geodesic_embedding elements f method nc nn rs isomapImpl mdsImpl
        pcaImpl = Except.ok e) := by
  constructor
  · intro hm
    have h1 : ¬(method = "isomap") := fun h => hm (by simp [h])
    have h2 : ¬(method = "mds") := fun h => hm (by simp [h])
    have h3 : ¬(method = "pca") := fun h => hm (by simp [h])
    rw [geodesic_embedding, if_neg h1, if_neg h2, if_neg h3]
  · intro hm
    have hm' : method = "isomap" ∨ method = "mds" ∨ method = "pca" := by
      simpa using hm
    rcases hm' with rfl | rfl | rfl
    · exact ⟨_, by rw [geodesic_embedding, if_pos rfl]⟩
    · exact ⟨_, by rw [geodesic_embedding, if_neg (by decide), if_pos rfl]⟩
    · exact ⟨_, by
        rw [geodesic_embedding, if_neg (by decide), if_neg (by decide),
          if_pos rfl]⟩

/-- C7 witness: a concrete unsupported method errors, a supported one
succeeds. -/
theorem geodesic_embedding_dispatch_witness :
    geodesic_embedding (fun _ : Fin 1 => (0 : ℕ)) (fun _ _ => (0 : ℕ)) "tsne"
        2 12 42 (fun _ _ _ => (0 : ℕ)) (fun _ _ _ => 0) (fun _ _ => 0) =
      Except.error (EmbedError.unknownMethod "tsne") ∧
    ∃ e, geodesic_embedding (fun _ : Fin 1 => (0 : ℕ)) (fun _ _ => (0 : ℕ))
        "mds" 2 12 42 (fun _ _ _ => (0 : ℕ)) (fun _ _ _ => 0)
        (fun _ _ => 0) = Except.ok e := by
  constructor
  · exact (geodesic_embedding_dispatch (fun _ : Fin 1 => (0 : ℕ))
      (fun _ _ => (0 : ℕ)) "tsne" 2 12 42 (fun _ _ _ => (0 : ℕ))
      (fun _ _ _ => 0) (fun _ _ => 0)).1 (by decide)
  · exact (geodesic_embedding_dispatch (fun _ : Fin 1 => (0 : ℕ))
      (fun _ _ => (0 : ℕ)) "mds" 2 12 42 (fun _ _ _ => (0 : ℕ))
      (fun _ _ _ => 0) (fun _ _ => 0)).2 (by decide)

/-- C8 counterexample: with `num_samples = 1`, `random_sun` returns the bare
sample (`Sum.inl`), not a one-element sequence — contradicting the claim
that the batch routine always returns an ordered sequence of `k` elements. -/
theorem random_sun_one_returns_bare :
    random_sun (fun i : ℕ => i) 1 = Sum.inl 0 ∧
      ¬∃ l : List ℕ, random_sun (fun i : ℕ => i) 1 = Sum.inr l ∧
        l.length = 1 := by
  refine ⟨rfl, ?_⟩
  rintro ⟨l, hl, -⟩
  rw [show random_sun (fun i : ℕ => i) 1 = Sum.inl 0 from rfl] at hl
  exact Sum.noConfusion hl

/-- C8 amended: for `num_samples ≠ 1` the batch sampler returns the list of
`num_samples` independent draws of the single-sample routine (in input
order); for `num_samples = 1` it returns the bare single draw. -/
theorem random_sun_spec {α : Type*} (random_su : ℕ → α) (num_samples : ℕ)
    (h : num_samples ≠ 1) :
    random_sun random_su num_samples =
      Sum.inr ((List.range num_samples).map random_su) ∧
    ((List.range num_samples).map random_su).length = num_samples := by
  rw [random_sun, if_neg h]
  exact ⟨rfl, by simp⟩

/-- C8 witness at `num_samples = 2`. -/
theorem random_sun_spec_witness :
    random_sun (fun i : ℕ => i) 2 = Sum.inr [0, 1] := by
  rw [(random_sun_spec (fun i : ℕ => i) 2 (by decide)).1]
  rfl

/-- C6 counterexample: at the Hermitian input `[[-1]]` (eigendecomposition
`w = [-1]`, `V = I` as returned by `eigh`), the `hermitian=True` branch of
`matrix_log` returns a value (`Except.ok`) instead of failing with
`NonPositiveEigenvalue`. -/
theorem matrix_log_hermitian_neg_no_error :
    (matrix_log_hermitian (fun _ : Fin 1 => (-1 : ℝ)) 1).isOk = true ∧
      matrix_log_hermitian (fun _ : Fin 1 => (-1 : ℝ)) 1 ≠
        Except.error MatrixLogError.nonPositiveEigenvalue := by
  refine ⟨rfl, ?_⟩
  intro h
  rw [matrix_log_hermitian] at h
  exact Except.noConfusion h

/-- C6 amended: the `hermitian=True` branch performs no eigenvalue check —
even when some eigenvalue is `≤ 0` it raises no error and returns the
reconstructed matrix `V·diag(log w)·V†` (where `numpy`'s `log` silently
produces non-finite entries on the nonpositive eigenvalues). -/
theorem matrix_log_hermitian_no_check {n : ℕ} (w : Fin n → ℝ)
    (V : Matrix (Fin n) (Fin n) ℂ) (h : ∃ i, w i ≤ 0) :
    matrix_log_hermitian w V =
      Except.ok (V * Matrix.diagonal (fun i => (Real.log (w i) : ℂ)) * Vᴴ) :=
  rfl

/-- C6 witness at the `1 × 1` input with eigenvalue `-1`. -/
theorem matrix_log_hermitian_no_check_witness :
    matrix_log_hermitian (fun _ : Fin 1 => (-1 : ℝ)) 1 =
      Except.ok ((1 : Matrix (Fin 1) (Fin 1) ℂ) *
        Matrix.diagonal (fun i : Fin 1 =>
          (Real.log ((fun _ : Fin 1 => (-1 : ℝ)) i) : ℂ)) *
        (1 : Matrix (Fin 1) (Fin 1) ℂ)ᴴ) :=
  matrix_log_hermitian_no_check (fun _ : Fin 1 => (-1 : ℝ)) 1
    ⟨0, by norm_num⟩

/-- C1: the bi-invariant distance satisfies `distance(U, U) = 0`, symmetry
`distance(U, V) = distance(V, U)`, and left- and right-invariance
`distance(WU, WV) = distance(U, V) = distance(UW, VW)` for unitary
`U`, `V`, `W` — exactly, in the exact-arithmetic model (the code's "within
≈1e-9 relative tolerance"). -/
theorem bi_invariant_distance_props {n : ℕ}
    (U V W : Matrix (Fin n) (Fin n) ℂ)
    (hU : U ∈ Matrix.unitaryGroup (Fin n) ℂ)
    (hV : V ∈ Matrix.unitaryGroup (Fin n) ℂ)
    (hW : W ∈ Matrix.unitaryGroup (Fin n) ℂ) :
    bi_invariant_distance U U = 0 ∧
    bi_invariant_distance U V = bi_invariant_distance V U ∧
    bi_invariant_distance (W * U) (W * V) = bi_invariant_distance U V ∧
    bi_invariant_distance (U * W) (V * W) = bi_invariant_distance U V := by
  have hUU : Uᴴ * U = 1 := by
    rw [← Matrix.star_eq_conjTranspose]
    exact Matrix.mem_unitaryGroup_iff'.mp hU
  have hWW : Wᴴ * W = 1 := by
    rw [← Matrix.star_eq_conjTranspose]
    exact Matrix.mem_unitaryGroup_iff'.mp hW
  refine ⟨?_, ?_, ?_, ?_⟩
  · rw [bi_invariant_distance, hUU, ← Matrix.diagonal_one,
      roots_charpoly_diagonal, Multiset.map_map]
    simp [Function.comp, Complex.arg_one]
  · have hVU : Vᴴ * U = (Uᴴ * V)ᴴ := by
      rw [Matrix.conjTranspose_mul, Matrix.conjTranspose_conjTranspose]
    rw [bi_invariant_distance, bi_invariant_distance, hVU,
      roots_charpoly_conjTranspose, Multiset.map_map]
    congr 1
    refine congrArg Multiset.sum (Multiset.map_congr rfl fun z _ => ?_)
    simp only [Function.comp_apply]
    rcases eq_or_ne (Complex.arg z) Real.pi with h | h
    · rw [Complex.arg_conj, if_pos h, h]
    · rw [Complex.arg_conj, if_neg h, neg_pow]
      rcases Nat.even_or_odd 2 with he | ho
      · rw [Even.neg_one_pow he, one_mul]
      · exact absurd ho (by decide)
  · have hleft : (W * U)ᴴ * (W * V) = Uᴴ * V := by
      rw [Matrix.conjTranspose_mul, mul_assoc, ← mul_assoc Wᴴ W V, hWW,
        one_mul]
    rw [bi_invariant_distance, bi_invariant_distance, hleft]
  · have hright : (U * W)ᴴ * (V * W) = Wᴴ * (Uᴴ * V) * W := by
      rw [Matrix.conjTranspose_mul]
      simp only [mul_assoc]
    rw [bi_invariant_distance, bi_invariant_distance, hright,
      charpoly_conj _ _ _ hWW]

/-- C1 witness at `n = 1`, `U = V = W = I`. -/
theorem bi_invariant_distance_props_witness :
    bi_invariant_distance (1 : Matrix (Fin 1) (Fin 1) ℂ) 1 = 0 :=
  (bi_invariant_distance_props 1 1 1 (one_mem _) (one_mem _) (one_mem _)).1

/-- C2: the alcove coordinates of an SU(n) element `U` and of its conjugate
`V·U·V†` by any SU(n) element `V` are equal (exactly, in the
exact-arithmetic model): eigenvalues, hence sorted centered angle gaps, are
conjugation-invariant. -/
theorem sun_alcove_coords_conj_invariant {n : ℕ}
    (U V : Matrix (Fin n) (Fin n) ℂ)
    (hU : U ∈ Matrix.unitaryGroup (Fin n) ℂ) (hdU : U.det = 1)
    (hV : V ∈ Matrix.unitaryGroup (Fin n) ℂ) (hdV : V.det = 1) :
    sun_alcove_coords (V * U * Vᴴ) = sun_alcove_coords U := by
  have hVV : V * Vᴴ = 1 := by
    rw [← Matrix.star_eq_conjTranspose]
    exact Matrix.mem_unitaryGroup_iff.mp hV
  rw [sun_alcove_coords, sun_alcove_coords, alcove_angles, alcove_angles,
    eig_angles, eig_angles, charpoly_conj _ _ _ hVV]

/-- C2 witness at `n = 1`, `U = V = I`. -/
theorem sun_alcove_coords_conj_invariant_witness :
    sun_alcove_coords ((1 : Matrix (Fin 1) (Fin 1) ℂ) * 1 *
        (1 : Matrix (Fin 1) (Fin 1) ℂ)ᴴ) =
      sun_alcove_coords (1 : Matrix (Fin 1) (Fin 1) ℂ) :=
  sun_alcove_coords_conj_invariant 1 1 (one_mem _) Matrix.det_one (one_mem _)
    Matrix.det_one

theorem univ_val_eq_finRange (n : ℕ) :
    (Finset.univ : Finset (Fin n)).val = ↑(List.finRange n) := by
  rw [Fin.univ_def]

theorem sort_eq_of_sorted {l : List ℝ} {m : Multiset ℝ}
    (hm : (l : Multiset ℝ) = m) (hl : l.Sorted (· ≤ ·)) :
    m.sort (· ≤ ·) = l :=
  List.eq_of_perm_of_sorted
    (Multiset.coe_eq_coe.mp (by rw [Multiset.sort_eq]; exact hm.symm))
    (Multiset.sort_sorted _ m) hl

theorem center_angles_of_sum_zero {m : Multiset ℝ} (h : m.sum = 0) :
    center_angles m = m := by
  rw [center_angles, h]
  simp

/-- The sorted centered angle vector of `diag(1, i, −i) ∈ SU(3)` is
`[π/2, 0, −π/2]`. -/
theorem alcove_angles_example :
    alcove_angles (Matrix.diagonal ![1, Complex.I, -Complex.I]) =
      [Real.pi / 2, 0, -(Real.pi / 2)] := by
  have hroots :
      (Matrix.diagonal ![1, Complex.I, -Complex.I]).charpoly.roots =
        (([1, Complex.I, -Complex.I] : List ℂ) : Multiset ℂ) := by
    rw [roots_charpoly_diagonal, univ_val_eq_finRange,
      show List.finRange 3 = [0, 1, 2] by decide]
    simp
  have hangles :
      eig_angles (Matrix.diagonal ![1, Complex.I, -Complex.I]) =
        (([0, Real.pi / 2, -(Real.pi / 2)] : List ℝ) : Multiset ℝ) := by
    rw [eig_angles, hroots]
    simp [Complex.arg_one, Complex.arg_I, Complex.arg_neg_I]
  have hsum : (([0, Real.pi / 2, -(Real.pi / 2)] : List ℝ) :
      Multiset ℝ).sum = 0 := by
    rw [Multiset.sum_coe]
    simp
  have hsort : (([0, Real.pi / 2, -(Real.pi / 2)] : List ℝ) :
      Multiset ℝ).sort (· ≤ ·) = [-(Real.pi / 2), 0, Real.pi / 2] := by
    refine sort_eq_of_sorted
      (Multiset.coe_eq_coe.mpr (List.perm_append_singleton _ _).symm) ?_
    have hπ := Real.pi_pos
    simp only [List.sorted_cons, List.mem_cons, List.mem_singleton,
      List.not_mem_nil, or_false, List.sorted_nil, and_true,
      List.sorted_singleton]
    refine ⟨?_, fun b hb => by rw [hb]; linarith, fun b hb => absurd hb not_false⟩
    rintro y (rfl | rfl) <;> linarith
  rw [alcove_angles, hangles, center_angles_of_sum_zero hsum, sort_desc,
    hsort]
  rfl

/-- C10 (evaluation at the failing input): at `U = diag(1, i, −i) ∈ SU(3)`
the SU(3)-specific routine returns `[π/2, π/2]` while the general-dimension
routine returns `[−π/2, −π/2]` — `np.diff` of a descending array yields the
negated gaps, so the two implementations disagree on their common domain
(and `sun_alcove_coords`'s output violates the repository's own
nonnegativity test). -/
theorem su3_sun_alcove_disagree :
    su3_alcove_coords (Matrix.diagonal ![1, Complex.I, -Complex.I]) =
      [Real.pi / 2, Real.pi / 2] ∧
    sun_alcove_coords (Matrix.diagonal ![1, Complex.I, -Complex.I]) =
      [-(Real.pi / 2), -(Real.pi / 2)] ∧
    sun_alcove_coords (Matrix.diagonal ![1, Complex.I, -Complex.I]) ≠
      su3_alcove_coords (Matrix.diagonal ![1, Complex.I, -Complex.I]) := by
  have h1 : su3_alcove_coords (Matrix.diagonal ![1, Complex.I, -Complex.I]) =
      [Real.pi / 2, Real.pi / 2] := by
    simp only [su3_alcove_coords, alcove_angles_example]
    norm_num
  have h2 : sun_alcove_coords (Matrix.diagonal ![1, Complex.I, -Complex.I]) =
      [-(Real.pi / 2), -(Real.pi / 2)] := by
    simp only [sun_alcove_coords, alcove_angles_example, np_diff,
      List.tail_cons, List.zipWith_cons_cons, List.zipWith_nil_right]
    norm_num
  refine ⟨h1, h2, ?_⟩
  rw [h1, h2]
  simp only [ne_eq, List.cons.injEq, not_and]
  intro h
  linarith [Real.pi_pos]

/-- C4: `polar_decomposition(A)`, on any valid SVD `(U, S, Vh)` of the
square complex matrix `A = U·diag(S)·Vh`, returns `(U_polar, P)` with
`U_polar·P = A` (reconstruction), `U_polar` unitary (`U·U† = I`), and `P`
positive semidefinite — in particular every eigenvalue of `P` is `≥ 0`
(the code's tolerances `1e-10` become exact). -/
theorem polar_decomposition_spec {n : ℕ} (U : Matrix (Fin n) (Fin n) ℂ)
    (S : Fin n → ℝ) (Vh : Matrix (Fin n) (Fin n) ℂ)
    (hU : U ∈ Matrix.unitaryGroup (Fin n) ℂ)
    (hVh : Vh ∈ Matrix.unitaryGroup (Fin n) ℂ) (hS : ∀ i, 0 ≤ S i) :
    (polar_decomposition U S Vh).1 * (polar_decomposition U S Vh).2 =
      U * Matrix.diagonal (fun i => (S i : ℂ)) * Vh ∧
    (polar_decomposition U S Vh).1 ∈ Matrix.unitaryGroup (Fin n) ℂ ∧
    (polar_decomposition U S Vh).2.PosSemidef ∧
    ∀ (hH : (polar_decomposition U S Vh).2.IsHermitian) (i : Fin n),
      0 ≤ hH.eigenvalues i := by
  have hVVt : Vh * Vhᴴ = 1 := by
    rw [← Matrix.star_eq_conjTranspose]
    exact Matrix.mem_unitaryGroup_iff.mp hVh
  have hP : (polar_decomposition U S Vh).2.PosSemidef :=
    Matrix.PosSemidef.conjTranspose_mul_mul_same
      (Matrix.posSemidef_diagonal_iff.mpr fun i =>
        Complex.zero_le_real.mpr (hS i)) Vh
  refine ⟨?_, mul_mem hU hVh, hP, fun hH i => hP.eigenvalues_nonneg i⟩
  calc U * Vh * (Vhᴴ * Matrix.diagonal (fun i => (S i : ℂ)) * Vh)
      = U * (Vh * Vhᴴ) * Matrix.diagonal (fun i => (S i : ℂ)) * Vh := by
        simp only [mul_assoc]
    _ = U * Matrix.diagonal (fun i => (S i : ℂ)) * Vh := by
        rw [hVVt, mul_one]

/-- C4 witness at `n = 1`, `A = I` with SVD `(I, 1, I)`. -/
theorem polar_decomposition_spec_witness :
    (polar_decomposition (1 : Matrix (Fin 1) (Fin 1) ℂ) (fun _ => 1) 1).1 *
        (polar_decomposition (1 : Matrix (Fin 1) (Fin 1) ℂ) (fun _ => 1) 1).2 =
      (1 : Matrix (Fin 1) (Fin 1) ℂ) *
        Matrix.diagonal (fun _ : Fin 1 => ((1 : ℝ) : ℂ)) * 1 ∧
    (polar_decomposition (1 : Matrix (Fin 1) (Fin 1) ℂ)
      (fun _ => 1) 1).2.PosSemidef := by
  have h := polar_decomposition_spec (1 : Matrix (Fin 1) (Fin 1) ℂ)
    (fun _ => 1) 1 (one_mem _) (one_mem _) fun _ => zero_le_one
  exact ⟨h.1, h.2.2.1⟩

/-- C5: for any valid SVD of the real invertible matrix `g`,
`cartan_projection` returns the elementwise logs of the descending-sorted
singular values (a descending vector), and for any orthogonal `Q`, `Q'` and
any valid SVD of `Q·g·Q'`, the projection computed from the latter agrees
with the one computed from `g`'s own SVD (left/right orthogonal
invariance, including independence of the particular SVD chosen). -/
theorem cartan_projection_spec {n : ℕ}
    (g Q Q' U₁ : Matrix (Fin n) (Fin n) ℝ) (S₁ : Fin n → ℝ)
    (Vh₁ U₂ : Matrix (Fin n) (Fin n) ℝ) (S₂ : Fin n → ℝ)
    (Vh₂ : Matrix (Fin n) (Fin n) ℝ)
    (h₁ : IsSVDOf g U₁ S₁ Vh₁) (h₂ : IsSVDOf (Q * g * Q') U₂ S₂ Vh₂)
    (hQ : Q ∈ Matrix.unitaryGroup (Fin n) ℝ)
    (hQ' : Q' ∈ Matrix.unitaryGroup (Fin n) ℝ) (hg : g.det ≠ 0) :
    cartan_projection S₂ = cartan_projection S₁ ∧
    cartan_projection S₁ =
      (sort_desc (Finset.univ.val.map S₁)).map Real.log ∧
    (sort_desc (Finset.univ.val.map S₁)).Sorted (· ≥ ·) ∧
    (cartan_projection S₁).Sorted (· ≥ ·) := by
  have h₁' : IsSVDOf (Q * g * Q') (Q * U₁) S₁ (Vh₁ * Q') := by
    obtain ⟨hU, hVh, hS, hgeq⟩ := h₁
    refine ⟨mul_mem hQ hU, mul_mem hVh hQ', hS, ?_⟩
    rw [hgeq]
    simp only [mul_assoc]
  have hmult := svd_singular_multiset_unique h₂ h₁'
  have hpos : ∀ i, 0 < S₁ i := by
    obtain ⟨hU, hVh, hS, hgeq⟩ := h₁
    have hdet : g.det = U₁.det * (∏ i, S₁ i) * Vh₁.det := by
      rw [hgeq, Matrix.det_mul, Matrix.det_mul, Matrix.det_diagonal]
    intro i
    rcases lt_or_eq_of_le (hS i) with h | h
    · exact h
    · exfalso
      apply hg
      rw [hdet, Finset.prod_eq_zero (Finset.mem_univ i) h.symm]
      ring
  have hsorted : (sort_desc (Finset.univ.val.map S₁)).Sorted (· ≥ ·) := by
    rw [sort_desc, List.Sorted]
    have hs : (Multiset.sort (· ≤ ·) (Finset.univ.val.map S₁)).Sorted
        (· ≤ ·) := Multiset.sort_sorted _ _
    exact List.pairwise_reverse.mpr hs
  refine ⟨?_, rfl, hsorted, ?_⟩
  · rw [cartan_projection, cartan_projection, hmult]
  · rw [cartan_projection, List.Sorted, List.pairwise_map]
    have hmem : ∀ x ∈ sort_desc (Finset.univ.val.map S₁), 0 < x := by
      intro x hx
      rw [sort_desc, List.mem_reverse, Multiset.mem_sort] at hx
      obtain ⟨i, -, rfl⟩ := Multiset.mem_map.mp hx
      exact hpos i
    exact List.Pairwise.imp_of_mem
      (fun ha hb hab => Real.log_le_log (hmem _ hb) hab) hsorted

/-- C5 witness at `n = 1`, `g = Q = Q' = I`, all SVD factors trivial. -/
theorem cartan_projection_spec_witness :
    cartan_projection (fun _ : Fin 1 => (1 : ℝ)) =
      cartan_projection (fun _ : Fin 1 => (1 : ℝ)) ∧
    (cartan_projection (fun _ : Fin 1 => (1 : ℝ))).Sorted (· ≥ ·) := by
  have hsvd : IsSVDOf (1 : Matrix (Fin 1) (Fin 1) ℝ) 1 (fun _ => 1) 1 :=
    ⟨one_mem _, one_mem _, fun _ => zero_le_one, by simp⟩
  have hsvd' : IsSVDOf ((1 : Matrix (Fin 1) (Fin 1) ℝ) * 1 * 1) 1
      (fun _ => 1) 1 := by
    simpa using hsvd
  have h := cartan_projection_spec 1 1 1 1 (fun _ => 1) 1 1 (fun _ => 1) 1
    hsvd hsvd' (one_mem _) (one_mem _) (by simp)
  exact ⟨h.1, h.2.2.2⟩

/-- C9 (amended): for every input, the returned correlations lie in
`[-1, 1]` (the degenerate zero-variance case evaluates to the junk value
`0`, inside the interval; scipy produces `nan` or raises there) and the
returned stress and distortions are `≥ 0`; and whenever the embedding's
pairwise distances coincide with the distance matrix's upper-triangle
entries, the stress is exactly `0`, and if moreover the distance vector is
not constant, the Pearson correlation is exactly `1`. -/
theorem analyze_embedding_quality_spec {k d : ℕ} (emb : Fin k → Fin d → ℝ)
    (D : Fin k → Fin k → ℝ) :
    (-1 ≤ (analyze_embedding_quality emb D).pearson_correlation ∧
      (analyze_embedding_quality emb D).pearson_correlation ≤ 1) ∧
    (-1 ≤ (analyze_embedding_quality emb D).spearman_correlation ∧
      (analyze_embedding_quality emb D).spearman_correlation ≤ 1) ∧
    0 ≤ (analyze_embedding_quality emb D).normalized_stress ∧
    0 ≤ (analyze_embedding_quality emb D).mean_distortion ∧
    0 ≤ (analyze_embedding_quality emb D).max_distortion ∧
    (orig_flat D = embed_flat emb →
      ((∃ a ∈ orig_flat D, ∃ b ∈ orig_flat D, a ≠ b) →
        (analyze_embedding_quality emb D).pearson_correlation = 1) ∧
      (analyze_embedding_quality emb D).normalized_stress = 0) := by
  have hp := pearson_map_bounds (upperPairs k)
    (fun p : Fin k × Fin k => D p.1 p.2)
    fun p => embed_dist emb p.1 p.2
  have hsp := spearman_map_bounds (upperPairs k)
    (fun p : Fin k × Fin k => D p.1 p.2)
    fun p => embed_dist emb p.1 p.2
  refine ⟨hp, hsp, Real.sqrt_nonneg _, ?_, foldr_max_nonneg _, ?_⟩
  · show 0 ≤ list_mean
      (List.zipWith (fun a b => |a - b|) (orig_flat D) (embed_flat emb))
    have hzip : List.zipWith (fun a b => |a - b|) (orig_flat D)
        (embed_flat emb) =
        (upperPairs k).map fun p => |D p.1 p.2 - embed_dist emb p.1 p.2| := by
      rw [orig_flat, embed_flat, zipWith_map_same]
    rw [hzip, list_mean]
    refine div_nonneg (List.sum_nonneg fun x hx => ?_) (Nat.cast_nonneg _)
    obtain ⟨p, -, rfl⟩ := List.mem_map.mp hx
    exact abs_nonneg _
  · intro hperf
    constructor
    · intro hnc
      show pearson (orig_flat D) (embed_flat emb) = 1
      rw [← hperf]
      exact pearson_self _ hnc
    · show Real.sqrt
        ((List.zipWith (fun a b => (a - b) ^ 2) (orig_flat D)
          (embed_flat emb)).sum / ((orig_flat D).map fun a => a ^ 2).sum) = 0
      rw [← hperf, zipWith_self_eq_map]
      have hz : ((orig_flat D).map fun a => (a - a) ^ 2).sum = 0 :=
        List.sum_eq_zero fun x hx => by
          obtain ⟨a, -, rfl⟩ := List.mem_map.mp hx
          ring
      rw [hz, zero_div, Real.sqrt_zero]

/-- C9 witness: three collinear points `0, 1, 3` on a line, embedded as
themselves, with their exact distance matrix — Pearson is exactly 1 and
stress exactly 0. -/
theorem analyze_embedding_quality_spec_witness :
    (analyze_embedding_quality (![![0], ![1], ![3]] : Fin 3 → Fin 1 → ℝ)
        ![![0, 1, 3], ![1, 0, 2], ![3, 2, 0]]).pearson_correlation = 1 ∧
    (analyze_embedding_quality (![![0], ![1], ![3]] : Fin 3 → Fin 1 → ℝ)
        ![![0, 1, 3], ![1, 0, 2], ![3, 2, 0]]).normalized_stress = 0 := by
  have hup : upperPairs 3 = [(0, 1), (0, 2), (1, 2)] := by decide
  have h9 : Real.sqrt 9 = 3 := by
    rw [show (9 : ℝ) = 3 ^ 2 by norm_num]
    exact Real.sqrt_sq (by norm_num)
  have h4 : Real.sqrt 4 = 2 := by
    rw [show (4 : ℝ) = 2 ^ 2 by norm_num]
    exact Real.sqrt_sq (by norm_num)
  have horig : orig_flat (![![0, 1, 3], ![1, 0, 2], ![3, 2, 0]] :
      Fin 3 → Fin 3 → ℝ) = [1, 3, 2] := by
    rw [orig_flat, hup]
    norm_num
  have hembed : embed_flat (![![0], ![1], ![3]] : Fin 3 → Fin 1 → ℝ) =
      [1, 3, 2] := by
    rw [embed_flat, hup]
    simp only [List.map_cons, List.map_nil, embed_dist, Fin.sum_univ_one]
    norm_num [h9, h4]
  have hperf : orig_flat (![![0, 1, 3], ![1, 0, 2], ![3, 2, 0]] :
      Fin 3 → Fin 3 → ℝ) =
      embed_flat (![![0], ![1], ![3]] : Fin 3 → Fin 1 → ℝ) := by
    rw [horig, hembed]
  have hnc : ∃ a ∈ orig_flat (![![0, 1, 3], ![1, 0, 2], ![3, 2, 0]] :
      Fin 3 → Fin 3 → ℝ), ∃ b ∈ orig_flat (![![0, 1, 3], ![1, 0, 2],
      ![3, 2, 0]] : Fin 3 → Fin 3 → ℝ), a ≠ b := by
    rw [horig]
    exact ⟨1, by simp, 3, by simp, by norm_num⟩
  have h := (analyze_embedding_quality_spec
    (![![0], ![1], ![3]] : Fin 3 → Fin 1 → ℝ)
    ![![0, 1, 3], ![1, 0, 2], ![3, 2, 0]]).2.2.2.2.2 hperf
  exact ⟨h.1 hnc, h.2⟩

/-- C9 counterexample: a perfect embedding of just two points (single
distance pair, zero variance) yields Pearson correlation `0` — the claim's
unqualified "Pearson = 1 for every perfect embedding of at least two
points" fails (scipy's `pearsonr` raises on the length-1 vectors). -/
theorem analyze_embedding_quality_two_points :
    orig_flat (![![0, 1], ![1, 0]] : Fin 2 → Fin 2 → ℝ) =
      embed_flat (![![0], ![1]] : Fin 2 → Fin 1 → ℝ) ∧
    (analyze_embedding_quality (![![0], ![1]] : Fin 2 → Fin 1 → ℝ)
        ![![0, 1], ![1, 0]]).pearson_correlation = 0 ∧
    (analyze_embedding_quality (![![0], ![1]] : Fin 2 → Fin 1 → ℝ)
        ![![0, 1], ![1, 0]]).pearson_correlation ≠ 1 := by
  have hup : upperPairs 2 = [(0, 1)] := by decide
  have horig : orig_flat (![![0, 1], ![1, 0]] : Fin 2 → Fin 2 → ℝ) =
      [1] := by
    rw [orig_flat, hup]
    norm_num
  have hembed : embed_flat (![![0], ![1]] : Fin 2 → Fin 1 → ℝ) = [1] := by
    rw [embed_flat, hup]
    simp only [List.map_cons, List.map_nil, embed_dist, Fin.sum_univ_one]
    norm_num
  have hpearson : pearson [1] [1] = 0 := by
    have hdev : deviations [1] = [0] := by
      simp [deviations, list_mean]
    rw [pearson, hdev]
    have hdot : list_dot [0] [0] = 0 := by
      simp [list_dot]
    rw [hdot, zero_div]
  refine ⟨by rw [horig, hembed], ?_, ?_⟩
  · show pearson (orig_flat (![![0, 1], ![1, 0]] : Fin 2 → Fin 2 → ℝ))
      (embed_flat (![![0], ![1]] : Fin 2 → Fin 1 → ℝ)) = 0
    rw [horig, hembed, hpearson]
  · show pearson (orig_flat (![![0, 1], ![1, 0]] : Fin 2 → Fin 2 → ℝ))
      (embed_flat (![![0], ![1]] : Fin 2 → Fin 1 → ℝ)) ≠ 1
    rw [horig, hembed, hpearson]
    norm_num

end LieGroups
